import Mathlib

/-!
Verification of the SSE and stdio transport bridge (remote/proxy.js) and of
the unbuffered relay variant of the same bridge. JavaScript strings are
modelled as lists of characters; the host runtime calls that the bridge makes
(JSON.parse of a payload, the URL constructor) are modelled as oracle
functions supplied as parameters, so every definition stays executable.
-/

namespace Bridge

/-- Model of a JavaScript string: a list of characters. -/
abbrev Str := List Char

/-- Whitespace characters recognised by the trim operation on strings
(the ASCII subset, which is what the bridge traffic can contain). -/
def jsWhitespace (c : Char) : Bool :=
  c = ' ' || c = '\t' || c = '\n' || c = '\r' || c = '\x0b' || c = '\x0c'

/-- Model of the trim method: remove leading and trailing whitespace. -/
def jsTrim (s : Str) : Str :=
  ((s.dropWhile jsWhitespace).reverse.dropWhile jsWhitespace).reverse

/-- Truthiness of the trimmed line, the guard the bridge uses to drop
blank lines: true when the line has at least one non-whitespace character. -/
def nonBlank (s : Str) : Bool :=
  !(jsTrim s).isEmpty

/-- Model of indexOf of the newline character plus the two slice calls:
returns the text before the first newline and the text after it, or none
when the buffer holds no newline. -/
def splitFirstNewline : Str → Option (Str × Str)
  | [] => none
  | c :: cs =>
    if c = '\n' then some ([], cs)
    else
      match splitFirstNewline cs with
      | none => none
      | some (l, r) => some (c :: l, r)

/-- The while loop of the stdin data handler in remote/proxy.js (lines 41 to
69): repeatedly take the text before the first newline out of the buffer and,
when it is non-blank, emit it as the body of one POST. The fuel argument
bounds the number of iterations; each iteration consumes at least one
character, so fuel equal to the buffer length is always enough. -/
def drainBuffer : Nat → Str → Str × List Str
  | 0, buf => (buf, [])
  | fuel + 1, buf =>
    match splitFirstNewline buf with
    | none => (buf, [])
    | some (line, rest) =>
      let p := drainBuffer fuel rest
      (p.1, if nonBlank line then line :: p.2 else p.2)

/-- One invocation of the stdin data handler of remote/proxy.js: append the
chunk to the carried buffer, then drain every complete line. Returns the new
buffer and the lines the handler attempts to POST, in order. -/
def feed (buf chunk : Str) : Str × List Str :=
  drainBuffer (buf ++ chunk).length (buf ++ chunk)

/-- Feeding a whole sequence of chunks to the stdin data handler, collecting
every line it attempts to POST. -/
def feedAll (buf : Str) : List Str → Str × List Str
  | [] => (buf, [])
  | c :: cs =>
    let p := feed buf c
    let q := feedAll p.1 cs
    (q.1, p.2 ++ q.2)

/-- Helper for the reference splitter: prepend a character to the first
segment of a split result, or to the remainder when no segment exists. -/
def consLine (c : Char) : List Str × Str → List Str × Str
  | ([], r) => ([], c :: r)
  | (l :: ls, r) => ((c :: l) :: ls, r)

/-- Reference splitter: the complete newline-terminated segments of a string
together with the trailing remainder after the last newline. -/
def splitLines : Str → List Str × Str
  | [] => ([], [])
  | c :: cs =>
    if c = '\n' then ([] :: (splitLines cs).1, (splitLines cs).2)
    else consLine c (splitLines cs)

/-- Spec section 4.1 states that each extracted line is trimmed of a
trailing carriage return before being yielded. Modelled from the spec for
comparison with the code, which performs no such trimming. -/
def stripTrailingCR (l : Str) : Str :=
  if l.getLast? = some '\r' then l.dropLast else l

/-- Model of the split method on the newline character, as called by the
unbuffered relay variant: every segment, including the trailing one after
the last newline. -/
def jsSplitNl : Str → List Str
  | [] => [[]]
  | c :: cs =>
    if c = '\n' then [] :: jsSplitNl cs
    else
      match jsSplitNl cs with
      | [] => [[c]]
      | l :: ls => (c :: l) :: ls

/-- The stdin data handler of the unbuffered relay variant (unnamed
part_000, lines 25 to 51): split each chunk on newlines independently and
POST every non-blank segment; there is no carry-over buffer. -/
def unbufferedFeed (chunk : Str) : List Str :=
  (jsSplitNl chunk).filter nonBlank

/-- Feeding a whole sequence of chunks to the unbuffered relay variant,
collecting every line it attempts to POST. -/
def unbufferedFeedAll (chunks : List Str) : List Str :=
  (chunks.map unbufferedFeed).flatten

/-- Model of the split method on the two-character delimiter of two
consecutive newlines, as called on the SSE buffer in connectSSE: leftmost,
non-overlapping matches; every segment is returned, including the trailing
one after the last delimiter. -/
def jsSplitDbl : Str → List Str
  | [] => [[]]
  | [c] => [[c]]
  | c :: d :: cs =>
    if c = '\n' ∧ d = '\n' then [] :: jsSplitDbl cs
    else
      match jsSplitDbl (d :: cs) with
      | [] => [[c]]
      | l :: ls => (c :: l) :: ls

/-- Reference splitter for the SSE buffer: the complete blank-line
delimited event blocks of a string together with the trailing incomplete
block. -/
def splitEvents : Str → List Str × Str
  | [] => ([], [])
  | [c] => ([], [c])
  | c :: d :: cs =>
    if c = '\n' ∧ d = '\n' then ([] :: (splitEvents cs).1, (splitEvents cs).2)
    else consLine c (splitEvents (d :: cs))

/-- A string with no occurrence of two consecutive newlines. -/
def noDbl : Str → Bool
  | [] => true
  | [_] => true
  | c :: d :: cs => !(c = '\n' && d = '\n') && noDbl (d :: cs)

/-- One read of the SSE stream in connectSSE (remote/proxy.js lines 94 to
98): append the decoded chunk to the buffer, split on blank lines, pop the
trailing incomplete block back into the buffer, and hand every complete
block on for processing. Returns the new buffer and the complete blocks in
order. -/
def sseFrameStep (buf chunk : Str) : Str × List Str :=
  let evs := jsSplitDbl (buf ++ chunk)
  (evs.getLastD [], evs.dropLast)

/-- Feeding a whole sequence of reads to the SSE event framer, collecting
every complete event block it yields. -/
def sseFrameAll (buf : Str) : List Str → Str × List Str
  | [] => (buf, [])
  | c :: cs =>
    let p := sseFrameStep buf c
    let q := sseFrameAll p.1 cs
    (q.1, p.2 ++ q.2)

/-- The seven characters of the event-name field marker. -/
def eventMarker : Str := ['e', 'v', 'e', 'n', 't', ':', ' ']

/-- The six characters of the data field marker. -/
def dataMarker : Str := ['d', 'a', 't', 'a', ':', ' ']

/-- The scheme test used by the endpoint branch. -/
def httpMarker : Str := ['h', 't', 't', 'p']

/-- The path-root test used by the endpoint branch. -/
def slashMarker : Str := ['/']

/-- The reserved discovery event name. -/
def endpointName : Str := ['e', 'n', 'd', 'p', 'o', 'i', 'n', 't']

/-- The first suppressed notification method. -/
def readyMethod : Str :=
  ['c', 'o', 'n', 'n', 'e', 'c', 't', 'i', 'o', 'n', '/', 'r', 'e', 'a', 'd', 'y']

/-- The second suppressed notification method. -/
def capsMethod : Str :=
  ['s', 'e', 'r', 'v', 'e', 'r', '/', 'c', 'a', 'p', 'a', 'b', 'i', 'l', 'i', 't', 'i', 'e', 's']

/-- An event block carrying an event-name line and one data line, as it
appears between two blank-line delimiters on the wire. -/
def mkEvBlock (name payload : Str) : Str :=
  eventMarker ++ name ++ ['\n'] ++ (dataMarker ++ payload)

/-- An event block carrying a single data line and no event-name line. -/
def dataBlock (payload : Str) : Str :=
  dataMarker ++ payload

/-- Environment of the SSE listener. The two host-runtime calls the
listener makes are modelled as oracle functions: parseMethod gives the
method field of the payload when JSON parsing succeeds and the field holds
a string, and none when parsing throws or the field is absent; urlOrigin
gives the origin of a URL string, and none when the URL constructor
throws. -/
structure SseCtx where
  sseUrl : Str
  parseMethod : Str → Option Str
  urlOrigin : Str → Option Str

/-- The suppression test of remote/proxy.js lines 132 to 138: the payload
parses as JSON and its method is one of the two suppressed notification
methods. -/
def methodSuppressed (ctx : SseCtx) (dataStr : Str) : Bool :=
  match ctx.parseMethod dataStr with
  | some m => m = readyMethod || m = capsMethod
  | none => false

/-- The inner loop over the lines of one framed event block
(remote/proxy.js lines 101 to 145), threading the endpoint flag and the
mutable POST target. Returns the new POST target and the writes made to
the local output, in order. When the URL constructor throws in the
path-root branch, the exception is caught, the endpoint flag is not
cleared, and control falls through to the forwarding code for that same
line, exactly as in the source. -/
def processEventLines (ctx : SseCtx) : List Str → Bool → Str → Str × List Str
  | [], _, postUrl => (postUrl, [])
  | line :: rest, isEp, postUrl =>
    if eventMarker.isPrefixOf line then
      processEventLines ctx rest
        (if jsTrim (line.drop 7) = endpointName then true else isEp) postUrl
    else if dataMarker.isPrefixOf line then
      if isEp then
        if httpMarker.isPrefixOf (line.drop 6) then
          processEventLines ctx rest false (line.drop 6)
        else if slashMarker.isPrefixOf (line.drop 6) then
          match ctx.urlOrigin ctx.sseUrl with
          | some origin => processEventLines ctx rest false (origin ++ line.drop 6)
          | none =>
            if methodSuppressed ctx (line.drop 6) then
              processEventLines ctx rest isEp postUrl
            else
              let q := processEventLines ctx rest isEp postUrl
              (q.1, (line.drop 6 ++ ['\n']) :: q.2)
        else
          processEventLines ctx rest false (line.drop 6)
      else
        if methodSuppressed ctx (line.drop 6) then
          processEventLines ctx rest isEp postUrl
        else
          let q := processEventLines ctx rest isEp postUrl
          (q.1, (line.drop 6 ++ ['\n']) :: q.2)
    else
      processEventLines ctx rest isEp postUrl

/-- Processing of one complete framed event block: split it into lines and
run the line loop with the endpoint flag initially false. -/
def processEvent (ctx : SseCtx) (postUrl : Str) (event : Str) : Str × List Str :=
  processEventLines ctx (jsSplitNl event) false postUrl

/-- Processing of a list of framed event blocks in order, threading the
POST target and collecting local-output writes. -/
def processEvents (ctx : SseCtx) (postUrl : Str) : List Str → Str × List Str
  | [] => (postUrl, [])
  | ev :: evs =>
    let p := processEvent ctx postUrl ev
    let q := processEvents ctx p.1 evs
    (q.1, p.2 ++ q.2)

/-- Result of handling one decoded SSE read. -/
structure ChunkResult where
  postUrl : Str
  buf : Str
  outs : List Str

/-- Handling of one decoded SSE read: frame, then process every complete
event block. -/
def processSseChunk (ctx : SseCtx) (postUrl buf chunk : Str) : ChunkResult :=
  let evs := jsSplitDbl (buf ++ chunk)
  let r := processEvents ctx postUrl evs.dropLast
  ⟨r.1, evs.getLastD [], r.2⟩

/-- One observable step of the SSE read loop: a read that delivers a
chunk, a read that reports the stream done, or a read that throws. -/
inductive ReadStep where
  | chunk : Str → ReadStep
  | done : ReadStep
  | fail : ReadStep

/-- Outcome of one connection attempt: the initial fetch throws or
returns a non-ok status (both surface as a thrown error before the read
loop starts), or a stream is established and the read loop runs the given
script of reads. -/
inductive ConnOutcome where
  | connectError : ConnOutcome
  | stream : List ReadStep → ConnOutcome

/-- The fixed retry interval of the setTimeout call in remote/proxy.js
line 150, in milliseconds. -/
def retryDelayMs : Nat := 5000

/-- Result of running one connection attempt: final POST target, writes
to the local output, and the scheduled retry delay — some 5000 when the
catch handler ran setTimeout, none when connectSSE returned without
scheduling anything. -/
structure LoopResult where
  postUrl : Str
  outs : List Str
  retry : Option Nat

/-- The read loop of connectSSE (remote/proxy.js lines 90 to 147) run on a
script of reads. A done read breaks out of the loop, connectSSE returns,
and no retry is scheduled; a throwing read is caught by the surrounding
catch, which schedules connectSSE again after the fixed interval; an
exhausted script means the loop is still blocked waiting on a read. -/
def runReadLoop (ctx : SseCtx) (postUrl buf : Str) : List ReadStep → LoopResult
  | [] => ⟨postUrl, [], none⟩
  | .done :: _ => ⟨postUrl, [], none⟩
  | .fail :: _ => ⟨postUrl, [], some retryDelayMs⟩
  | .chunk c :: rest =>
    let p := processSseChunk ctx postUrl buf c
    let q := runReadLoop ctx p.postUrl p.buf rest
    ⟨q.postUrl, p.outs ++ q.outs, q.retry⟩

/-- One call of connectSSE: a connection error is thrown before the read
loop and caught, scheduling a retry after the fixed interval; an
established stream runs the read loop with an empty buffer. -/
def connectAttempt (ctx : SseCtx) (postUrl : Str) : ConnOutcome → LoopResult
  | .connectError => ⟨postUrl, [], some retryDelayMs⟩
  | .stream reads => runReadLoop ctx postUrl [] reads

/-- Outcome of one fetch call made by the Outbound Sender: a response
with its status and body text, or a thrown transport-level error with its
message. -/
inductive FetchOutcome where
  | ok : Nat → Str → FetchOutcome
  | err : Str → FetchOutcome

/-- Result of the Outbound Sender on a batch of lines: the POST requests
attempted as pairs of target and body, the writes to the local stdout,
and the diagnostic writes to the error channel. -/
structure SendResult where
  posts : List (Str × Str)
  outs : List Str
  errs : List Str

/-- Relay of one POST response body (remote/proxy.js lines 59 to 63):
write it to the local peer followed by one newline when it is non-empty
and not whitespace-only, otherwise write nothing. -/
def handleResponse (text : Str) : List Str :=
  if !text.isEmpty && nonBlank text then [text ++ ['\n']] else []

/-- The diagnostic tag written with a caught forwarding error. -/
def errTag : Str := "[Proxy] Error forwarding request: ".data

/-- Sending of one non-blank line (remote/proxy.js lines 47 to 67): one
POST to the current target, response body relayed on success whatever the
status, thrown errors caught and logged to the error channel only. -/
def sendLine (fetchO : Str → FetchOutcome) (postUrl line : Str) : SendResult :=
  match fetchO line with
  | .ok _ text => ⟨[(postUrl, line)], handleResponse text, []⟩
  | .err m => ⟨[(postUrl, line)], [], [errTag ++ m]⟩

/-- Sequential sending of a batch of framed lines, as the awaited while
loop of the stdin data handler does. -/
def processLines (fetchO : Str → FetchOutcome) (postUrl : Str) : List Str → SendResult
  | [] => ⟨[], [], []⟩
  | l :: ls =>
    let r := sendLine fetchO postUrl l
    let q := processLines fetchO postUrl ls
    ⟨r.posts ++ q.posts, r.outs ++ q.outs, r.errs ++ q.errs⟩

/-- The usage message printed when no SSE URL is supplied. -/
def usageMsg : Str := "Usage: node proxy.js <sse-url>".data

/-- The path suffix recognised on the configured SSE URL. -/
def sseSuffix : Str := ['/', 's', 's', 'e']

/-- The replacement path suffix for the initial POST target. -/
def mcpSuffix : Str := ['/', 'm', 'c', 'p']

/-- Model of the anchored replace call of remote/proxy.js line 25:
replace a trailing /sse by /mcp, otherwise leave the string unchanged. -/
def replaceSseSuffix (u : Str) : Str :=
  if sseSuffix.isSuffixOf u then u.take (u.length - 4) ++ mcpSuffix else u

/-- Observable result of startup: the process exits with a usage message
on the diagnostic channel and an exit code before any connection attempt,
or it runs with the given initial POST target. -/
inductive StartupResult where
  | exit : Str → Nat → StartupResult
  | run : Str → StartupResult
deriving DecidableEq

/-- Startup of remote/proxy.js lines 16 to 25: the second argv entry is
the SSE URL; a missing entry (none) and an empty entry are both falsy and
exit with the usage message and code 1; otherwise the initial POST target
is derived from the URL by the suffix replacement. -/
def startup : Option Str → StartupResult
  | none => .exit usageMsg 1
  | some u => if u.isEmpty then .exit usageMsg 1 else .run (replaceSseSuffix u)

/-- A concrete environment used by the witness theorems: a worker URL, a
parse oracle that recognises one payload as the ready notification, and a
URL-origin oracle defined on the worker URL. -/
def demoCtx : SseCtx :=
  ⟨"https://worker.example/sse".data,
   fun s => if s = "ready1".data then some readyMethod else none,
   fun u => if u = "https://worker.example/sse".data
            then some "https://worker.example".data else none⟩

theorem splitFirstNewline_none {s : Str} (h : splitFirstNewline s = none) :
    splitLines s = ([], s) := by
  induction s with
  | nil => rfl
  | cons c cs ih =>
    by_cases hc : c = '\n'
    · simp [splitFirstNewline, hc] at h
    · simp only [splitFirstNewline, if_neg hc] at h
      cases hr : splitFirstNewline cs with
      | none =>
        have hcs := ih hr
        simp [splitLines, if_neg hc, hcs, consLine]
      | some p => rw [hr] at h; simp at h

theorem splitFirstNewline_some {s l r : Str}
    (h : splitFirstNewline s = some (l, r)) :
    s = l ++ '\n' :: r ∧ splitLines s = (l :: (splitLines r).1, (splitLines r).2) := by
  induction s generalizing l r with
  | nil => simp [splitFirstNewline] at h
  | cons c cs ih =>
    by_cases hc : c = '\n'
    · subst hc
      simp only [splitFirstNewline, if_true] at h
      have h2 := Option.some.inj h
      injection h2 with hl hr
      subst hl; subst hr
      exact ⟨rfl, by simp [splitLines]⟩
    · simp only [splitFirstNewline, if_neg hc] at h
      cases hr : splitFirstNewline cs with
      | none => rw [hr] at h; simp at h
      | some p =>
        rw [hr] at h
        obtain ⟨p1, p2⟩ := p
        simp only [Option.some.injEq, Prod.mk.injEq] at h
        obtain ⟨hl, hrr⟩ := h
        subst hrr
        obtain ⟨hs, hsp⟩ := ih hr
        subst hl
        refine ⟨by simp [hs], ?_⟩
        simp only [splitLines, if_neg hc, hsp, consLine]

theorem drainBuffer_spec (fuel : Nat) (buf : Str) (h : buf.length ≤ fuel) :
    drainBuffer fuel buf = ((splitLines buf).2, (splitLines buf).1.filter nonBlank) := by
  induction fuel generalizing buf with
  | zero =>
    have : buf = [] := List.length_eq_zero.mp (Nat.le_zero.mp h)
    subst this; rfl
  | succ n ih =>
    cases hs : splitFirstNewline buf with
    | none =>
      have := splitFirstNewline_none hs
      simp [drainBuffer, hs, this]
    | some p =>
      obtain ⟨l, r⟩ := p
      obtain ⟨hb, hsp⟩ := splitFirstNewline_some hs
      have hlen : r.length ≤ n := by
        have : buf.length = l.length + 1 + r.length := by
          rw [hb]; simp [List.length_append]; omega
        omega
      simp only [drainBuffer, hs, ih r hlen, hsp]
      by_cases hnb : nonBlank l
      · simp [hnb, List.filter_cons]
      · simp [hnb, List.filter_cons]

theorem feed_spec (buf chunk : Str) :
    feed buf chunk
      = ((splitLines (buf ++ chunk)).2, (splitLines (buf ++ chunk)).1.filter nonBlank) :=
  drainBuffer_spec _ _ (Nat.le_refl _)

theorem splitLines_fst_nil {s : Str} (h : (splitLines s).1 = []) :
    (splitLines s).2 = s := by
  induction s with
  | nil => rfl
  | cons c cs ih =>
    by_cases hc : c = '\n'
    · subst hc; simp [splitLines] at h
    · simp only [splitLines, if_neg hc] at h ⊢
      cases hA : (splitLines cs).1 with
      | nil =>
        have hx := ih hA
        rw [show splitLines cs = ([], cs) from by rw [Prod.ext_iff]; exact ⟨hA, hx⟩]
        simp [consLine]
      | cons a as =>
        rw [show splitLines cs = (a :: as, (splitLines cs).2) from by
              rw [Prod.ext_iff]; exact ⟨hA, rfl⟩] at h
        simp [consLine] at h

theorem splitLines_no_newline {s : Str} (h : '\n' ∉ s) : splitLines s = ([], s) := by
  induction s with
  | nil => rfl
  | cons c cs ih =>
    have hc : c ≠ '\n' := by
      intro hcc; exact h (by rw [hcc]; exact List.mem_cons_self _ _)
    have hcs : '\n' ∉ cs := fun hm => h (List.mem_cons_of_mem _ hm)
    simp only [splitLines, if_neg hc, ih hcs, consLine]

theorem splitLines_snd_no_newline (s : Str) : '\n' ∉ (splitLines s).2 := by
  induction s with
  | nil => simp [splitLines]
  | cons c cs ih =>
    by_cases hc : c = '\n'
    · subst hc; simpa [splitLines] using ih
    · simp only [splitLines, if_neg hc]
      cases hA : (splitLines cs).1 with
      | nil =>
        rw [show splitLines cs = ([], (splitLines cs).2) from by
              rw [Prod.ext_iff]; exact ⟨hA, rfl⟩]
        simp only [consLine]
        intro hm
        cases List.mem_cons.mp hm with
        | inl h1 => exact hc h1.symm
        | inr h2 => exact ih h2
      | cons a as =>
        rw [show splitLines cs = (a :: as, (splitLines cs).2) from by
              rw [Prod.ext_iff]; exact ⟨hA, rfl⟩]
        simpa [consLine] using ih

theorem splitLines_snd_fst_nil (s : Str) : (splitLines (splitLines s).2).1 = [] := by
  rw [splitLines_no_newline (splitLines_snd_no_newline s)]

theorem splitLines_append (x y : Str) :
    splitLines (x ++ y)
      = ((splitLines x).1 ++ (splitLines ((splitLines x).2 ++ y)).1,
         (splitLines ((splitLines x).2 ++ y)).2) := by
  induction x with
  | nil => simp [splitLines]
  | cons c x ih =>
    rcases hp : splitLines x with ⟨l1, r1⟩
    rw [hp] at ih
    by_cases hc : c = '\n'
    · subst hc
      simp only [List.cons_append, splitLines, if_true, hp]
      simp [ih]
    · cases l1 with
      | nil =>
        have h1 : (splitLines x).1 = [] := by rw [hp]
        have hx : (splitLines x).2 = x := splitLines_fst_nil h1
        have hr1 : r1 = x := by rw [← hx, hp]
        have hp2 : splitLines x = ([], x) := by rw [hp, hr1]
        have hcx : splitLines (c :: x) = ([], c :: x) := by
          simp [splitLines, if_neg hc, hp2, consLine]
        rw [List.cons_append, hcx]
        simp
      | cons a as =>
        have hcx : splitLines (c :: x) = ((c :: a) :: as, r1) := by
          simp [splitLines, if_neg hc, hp, consLine]
        rw [List.cons_append, hcx]
        simp [splitLines, if_neg hc, ih, consLine]

theorem feedAll_spec (chunks : List Str) (buf : Str) (hb : (splitLines buf).1 = []) :
    feedAll buf chunks
      = ((splitLines (buf ++ chunks.flatten)).2,
         (splitLines (buf ++ chunks.flatten)).1.filter nonBlank) := by
  induction chunks generalizing buf with
  | nil =>
    have hx := splitLines_fst_nil hb
    simp [feedAll, hx, hb]
  | cons ch cs ih =>
    have hfeed := feed_spec buf ch
    have hrem : (splitLines (splitLines (buf ++ ch)).2).1 = [] :=
      splitLines_snd_fst_nil (buf ++ ch)
    have hih := ih _ hrem
    have happ := splitLines_append (buf ++ ch) cs.flatten
    simp only [feedAll, hfeed, hih]
    rw [Prod.ext_iff]
    constructor
    · simp only [List.flatten_cons, ← List.append_assoc, happ]
    · simp only [List.flatten_cons, ← List.append_assoc, happ, List.filter_append]

/-- C1: Line Framer chunk invariance. For every sequence of byte chunks fed
to the stdin data handler, the lines the bridge attempts to POST are exactly
the non-blank newline-terminated segments of the concatenation of the
chunks, in order — the result depends only on the concatenation, never on
where the chunk boundaries fall, and whitespace-only segments are dropped. -/
theorem lineFramer_chunk_invariance (chunks : List Str) :
    (feedAll [] chunks).2 = (splitLines chunks.flatten).1.filter nonBlank := by
  rw [feedAll_spec chunks [] (by rfl)]
  simp

theorem jsTrim_eq_nil_iff {s : Str} : jsTrim s = [] ↔ ∀ c ∈ s, jsWhitespace c := by
  unfold jsTrim
  rw [List.reverse_eq_nil_iff, List.dropWhile_eq_nil_iff]
  constructor
  · intro h c hc
    rw [← List.takeWhile_append_dropWhile (p := jsWhitespace) (l := s)] at hc
    rcases List.mem_append.mp hc with h1 | h2
    · exact List.mem_takeWhile_imp h1
    · exact h _ (List.mem_reverse.mpr h2)
  · intro h c hc
    exact h _ (List.dropWhile_subset _ (List.mem_reverse.mp hc))

theorem nonBlank_eq_false_iff {s : Str} :
    nonBlank s = false ↔ ∀ c ∈ s, jsWhitespace c := by
  unfold nonBlank
  rw [Bool.not_eq_false', List.isEmpty_iff, jsTrim_eq_nil_iff]

theorem nonBlank_append_char {s : Str} (c : Char) (h : nonBlank s = true) :
    nonBlank (s ++ [c]) = true := by
  by_contra hf
  rw [Bool.not_eq_true, nonBlank_eq_false_iff] at hf
  have : nonBlank s = false := by
    rw [nonBlank_eq_false_iff]
    intro d hd
    exact hf d (List.mem_append_left _ hd)
  rw [this] at h
  exact Bool.false_ne_true h

theorem eq_append_of_getLast? {s : Str} {a : Char} (h : s.getLast? = some a) :
    ∃ d, s = d ++ [a] := by
  induction s with
  | nil => simp at h
  | cons c cs ih =>
    cases cs with
    | nil =>
      simp [List.getLast?] at h
      exact ⟨[], by simp [h]⟩
    | cons b bs =>
      rw [List.getLast?_cons_cons] at h
      obtain ⟨d, hd⟩ := ih h
      exact ⟨c :: d, by rw [hd]; rfl⟩

theorem splitLines_no_nl_snoc {r : Str} (h : '\n' ∉ r) :
    splitLines (r ++ ['\n']) = ([r], []) := by
  induction r with
  | nil => simp [splitLines]
  | cons c cs ih =>
    have hc : c ≠ '\n' := fun hcc => h (by rw [hcc]; exact List.mem_cons_self _ _)
    have hcs : '\n' ∉ cs := fun hm => h (List.mem_cons_of_mem _ hm)
    simp only [List.cons_append, splitLines, if_neg hc, List.append_eq]
    rw [ih hcs]
    simp [consLine]

theorem splitLines_snd_of_ends_nl {s : Str} (h : s.getLast? = some '\n') :
    (splitLines s).2 = [] := by
  obtain ⟨d, hd⟩ := eq_append_of_getLast? h
  subst hd
  have happ := splitLines_append d ['\n']
  have hr := splitLines_no_nl_snoc (splitLines_snd_no_newline d)
  rw [happ, hr]

/-- C3 counterexample: feeding the single chunk with the characters a, CR,
LF makes the bridge POST the line consisting of a then CR — the trailing
carriage return is kept, so the yielded line differs from the CR-stripped
segment that the claim describes, and the POSTed body ends in a
carriage-return byte. -/
theorem crTrim_counterexample :
    (feed [] ['a', '\r', '\n']).2 ≠ [stripTrailingCR ['a', '\r']]
      ∧ (feed [] ['a', '\r', '\n']).2 = [['a', '\r']] := by
  constructor
  · decide
  · decide

/-- C3 amended: each line the Line Framer yields is the text before the
newline verbatim — no trailing carriage return is removed. Hence for every
input whose lines are terminated by CR LF, every POSTed body is the
original line with its carriage return still attached, ending in a CR
byte. -/
theorem crlfFeed_posts_keep_cr (ls : List Str)
    (h : ∀ l ∈ ls, nonBlank l = true ∧ '\n' ∉ l) :
    (feedAll [] (ls.map (fun l => l ++ ['\r', '\n']))).2
      = ls.map (fun l => l ++ ['\r']) := by
  induction ls with
  | nil => rfl
  | cons l ls ih =>
    obtain ⟨hnb, hnl⟩ := h l (List.mem_cons_self _ _)
    have hrest : ∀ x ∈ ls, nonBlank x = true ∧ '\n' ∉ x :=
      fun x hx => h x (List.mem_cons_of_mem _ hx)
    have hnl2 : '\n' ∉ l ++ ['\r'] := by
      intro hm
      rcases List.mem_append.mp hm with h1 | h2
      · exact hnl h1
      · simp at h2
    have hsp : splitLines (l ++ ['\r', '\n']) = ([l ++ ['\r']], []) := by
      have := splitLines_no_nl_snoc hnl2
      rw [show l ++ ['\r', '\n'] = (l ++ ['\r']) ++ ['\n'] from by simp, this]
    have hnb2 : nonBlank (l ++ ['\r']) = true := nonBlank_append_char _ hnb
    have hfeed : feed [] (l ++ ['\r', '\n']) = ([], [l ++ ['\r']]) := by
      rw [feed_spec]
      simp [hsp, List.filter_cons, hnb2]
    simp only [List.map_cons, feedAll, hfeed, ih hrest]
    simp

/-- C3 amended, witness: a concrete CR LF terminated line keeps its
carriage return in the POSTed body. -/
theorem crlfFeed_posts_keep_cr_witness :
    (feedAll [] ([['a']].map (fun l => l ++ ['\r', '\n']))).2
      = [['a']].map (fun l => l ++ ['\r']) :=
  crlfFeed_posts_keep_cr [['a']] (by decide)

theorem jsSplitNl_eq_splitLines (s : Str) :
    jsSplitNl s = (splitLines s).1 ++ [(splitLines s).2] := by
  induction s with
  | nil => rfl
  | cons c cs ih =>
    by_cases hc : c = '\n'
    · subst hc
      simp [jsSplitNl, splitLines, ih]
    · rcases hp : splitLines cs with ⟨l1, r1⟩
      rw [hp] at ih
      cases l1 with
      | nil =>
        have hcx : splitLines (c :: cs) = ([], c :: r1) := by
          simp [splitLines, if_neg hc, hp, consLine]
        simp only [jsSplitNl, if_neg hc, ih, hcx]
        simp
      | cons a as =>
        have hcx : splitLines (c :: cs) = ((c :: a) :: as, r1) := by
          simp [splitLines, if_neg hc, hp, consLine]
        simp only [jsSplitNl, if_neg hc, ih, hcx]
        simp

/-- C10 counterexample: on the chunk sequence "ab", "c\n" — a chunk
boundary inside a line — the unbuffered variant POSTs the two fragments
"ab" and "c" while the buffered Line Framer POSTs the single line "abc",
so the two relay variants are not equivalent for arbitrary chunkings. -/
theorem relayVariants_counterexample :
    unbufferedFeedAll [['a', 'b'], ['c', '\n']] = [['a', 'b'], ['c']]
      ∧ (feedAll [] [['a', 'b'], ['c', '\n']]).2 = [['a', 'b', 'c']]
      ∧ unbufferedFeedAll [['a', 'b'], ['c', '\n']]
          ≠ (feedAll [] [['a', 'b'], ['c', '\n']]).2 := by
  refine ⟨by decide, by decide, by decide⟩

/-- C10 amended: the two relay variants forward the same sequence of POST
bodies whenever every chunk ends with a newline, that is, whenever no
chunk boundary falls inside a line. -/
theorem relayVariants_agree_on_newline_chunks (chunks : List Str)
    (h : ∀ c ∈ chunks, c.getLast? = some '\n') :
    unbufferedFeedAll chunks = (feedAll [] chunks).2 := by
  induction chunks with
  | nil => rfl
  | cons ch cs ih =>
    have hch := h ch (List.mem_cons_self _ _)
    have hrest : ∀ c ∈ cs, c.getLast? = some '\n' :=
      fun c hc => h c (List.mem_cons_of_mem _ hc)
    have hsnd : (splitLines ch).2 = [] := splitLines_snd_of_ends_nl hch
    have hfeed : feed [] ch = ([], (splitLines ch).1.filter nonBlank) := by
      rw [feed_spec]
      simp [hsnd]
    have hunb : unbufferedFeed ch = (splitLines ch).1.filter nonBlank := by
      unfold unbufferedFeed
      rw [jsSplitNl_eq_splitLines, hsnd, List.filter_append]
      simp [List.filter_cons, nonBlank, jsTrim]
    simp only [unbufferedFeedAll, List.map_cons, List.flatten_cons, feedAll, hfeed]
    have ih2 := ih hrest
    simp only [unbufferedFeedAll] at ih2
    rw [hunb, ih2]

/-- C10 amended, witness: a concrete newline-terminated chunk sequence on
which the two relay variants agree. -/
theorem relayVariants_agree_witness :
    unbufferedFeedAll [['a', '\n'], ['b', '\n']]
      = (feedAll [] [['a', '\n'], ['b', '\n']]).2 :=
  relayVariants_agree_on_newline_chunks [['a', '\n'], ['b', '\n']] (by decide)

theorem splitEvents_fst_nil {s : Str} (h : (splitEvents s).1 = []) :
    (splitEvents s).2 = s := by
  induction s using splitEvents.induct with
  | case1 => rfl
  | case2 c => rfl
  | case3 c d cs hcd ih =>
    obtain ⟨hc, hd⟩ := hcd
    subst hc; subst hd
    simp [splitEvents] at h
  | case4 c d cs hcd ih =>
    rcases hp : splitEvents (d :: cs) with ⟨F1, F2⟩
    rw [hp] at ih
    simp only [splitEvents, if_neg hcd, hp] at h ⊢
    cases F1 with
    | nil =>
      have hF2 : F2 = d :: cs := ih rfl
      simp only [consLine]
      rw [hF2]
    | cons a as =>
      simp [consLine] at h

theorem noDbl_splitEvents {s : Str} (h : noDbl s = true) : splitEvents s = ([], s) := by
  induction s using splitEvents.induct with
  | case1 => rfl
  | case2 c => rfl
  | case3 c d cs hcd ih =>
    obtain ⟨hc, hd⟩ := hcd; subst hc; subst hd
    simp [noDbl] at h
  | case4 c d cs hcd ih =>
    have h2 : noDbl (d :: cs) = true := by
      simp only [noDbl, Bool.and_eq_true] at h
      exact h.2
    rw [show splitEvents (c :: d :: cs) = consLine c (splitEvents (d :: cs)) from by
          simp [splitEvents, if_neg hcd]]
    rw [ih h2]
    simp [consLine]

theorem splitEvents_snd_noDbl (s : Str) : noDbl (splitEvents s).2 = true := by
  induction s using splitEvents.induct with
  | case1 => rfl
  | case2 c => rfl
  | case3 c d cs hcd ih =>
    obtain ⟨hc, hd⟩ := hcd; subst hc; subst hd
    simpa [splitEvents] using ih
  | case4 c d cs hcd ih =>
    rcases hp : splitEvents (d :: cs) with ⟨F1, F2⟩
    rw [hp] at ih
    simp only [splitEvents, if_neg hcd, hp]
    cases F1 with
    | nil =>
      have hF2 : F2 = d :: cs := by
        have h0 : (splitEvents (d :: cs)).1 = [] := by rw [hp]
        have h1 := splitEvents_fst_nil h0
        rw [hp] at h1
        exact h1
      simp only [consLine]
      rw [hF2]
      simp only [noDbl, Bool.and_eq_true]
      constructor
      · simpa using not_and_or.mp hcd
      · rw [← hF2]; exact ih
    | cons a as =>
      simpa [consLine] using ih

theorem splitEvents_snd_fst_nil (s : Str) : (splitEvents (splitEvents s).2).1 = [] := by
  rw [noDbl_splitEvents (splitEvents_snd_noDbl s)]

theorem jsSplitDbl_eq_splitEvents (s : Str) :
    jsSplitDbl s = (splitEvents s).1 ++ [(splitEvents s).2] := by
  induction s using splitEvents.induct with
  | case1 => rfl
  | case2 c => rfl
  | case3 c d cs hcd ih =>
    obtain ⟨hc, hd⟩ := hcd; subst hc; subst hd
    simp [jsSplitDbl, splitEvents, ih]
  | case4 c d cs hcd ih =>
    rcases hp : splitEvents (d :: cs) with ⟨F1, F2⟩
    rw [hp] at ih
    cases F1 with
    | nil =>
      have hcx : splitEvents (c :: d :: cs) = ([], c :: F2) := by
        simp [splitEvents, if_neg hcd, hp, consLine]
      simp [jsSplitDbl, if_neg hcd, ih, hcx]
    | cons a as =>
      have hcx : splitEvents (c :: d :: cs) = ((c :: a) :: as, F2) := by
        simp [splitEvents, if_neg hcd, hp, consLine]
      simp [jsSplitDbl, if_neg hcd, ih, hcx]

theorem splitEvents_append (x y : Str) :
    splitEvents (x ++ y)
      = ((splitEvents x).1 ++ (splitEvents ((splitEvents x).2 ++ y)).1,
         (splitEvents ((splitEvents x).2 ++ y)).2) := by
  induction x using splitEvents.induct with
  | case1 => simp [splitEvents]
  | case2 c => simp [splitEvents]
  | case3 c d cs hcd ih =>
    obtain ⟨hc, hd⟩ := hcd; subst hc; subst hd
    rcases hp : splitEvents cs with ⟨E1, E2⟩
    rw [hp] at ih
    simp [splitEvents, hp, ih]
  | case4 c d cs hcd ih =>
    rcases hp : splitEvents (d :: cs) with ⟨F1, F2⟩
    rw [hp] at ih
    cases F1 with
    | nil =>
      have hF2 : F2 = d :: cs := by
        have h0 : (splitEvents (d :: cs)).1 = [] := by rw [hp]
        have h1 := splitEvents_fst_nil h0
        rw [hp] at h1
        exact h1
      subst hF2
      have hcx : splitEvents (c :: d :: cs) = ([], c :: d :: cs) := by
        simp [splitEvents, if_neg hcd, hp, consLine]
      rw [List.cons_append, List.cons_append, hcx]
      simp
    | cons a as =>
      have hcx : splitEvents (c :: d :: cs) = ((c :: a) :: as, F2) := by
        simp [splitEvents, if_neg hcd, hp, consLine]
      have hstep : splitEvents (c :: d :: (cs ++ y))
          = consLine c (splitEvents (d :: (cs ++ y))) := by
        simp [splitEvents, if_neg hcd]
      rw [List.cons_append, List.cons_append, hcx, hstep]
      rw [show (d :: (cs ++ y)) = (d :: cs) ++ y from rfl, ih]
      simp [consLine]

theorem sseFrameStep_spec (buf chunk : Str) :
    sseFrameStep buf chunk
      = ((splitEvents (buf ++ chunk)).2, (splitEvents (buf ++ chunk)).1) := by
  unfold sseFrameStep
  rw [jsSplitDbl_eq_splitEvents]
  rw [Prod.ext_iff]
  constructor
  · simp
  · simp [List.dropLast_concat]

theorem sseFrameAll_spec (reads : List Str) (buf : Str)
    (hb : (splitEvents buf).1 = []) :
    sseFrameAll buf reads
      = ((splitEvents (buf ++ reads.flatten)).2,
         (splitEvents (buf ++ reads.flatten)).1) := by
  induction reads generalizing buf with
  | nil =>
    have hx := splitEvents_fst_nil hb
    simp [sseFrameAll, hx, hb]
  | cons r rs ih =>
    have hstep := sseFrameStep_spec buf r
    have hrem := splitEvents_snd_fst_nil (buf ++ r)
    have hih := ih _ hrem
    have happ := splitEvents_append (buf ++ r) rs.flatten
    simp only [sseFrameAll, hstep, hih]
    rw [Prod.ext_iff]
    constructor
    · simp only [List.flatten_cons, ← List.append_assoc, happ]
    · simp only [List.flatten_cons, ← List.append_assoc, happ]

theorem jsSplitNl_no_nl {s : Str} (h : '\n' ∉ s) : jsSplitNl s = [s] := by
  rw [jsSplitNl_eq_splitLines, splitLines_no_newline h]
  rfl

theorem not_nl_mem_eventMarker : '\n' ∉ eventMarker := by decide

theorem not_nl_mem_dataMarker : '\n' ∉ dataMarker := by decide

theorem jsSplitNl_mkEvBlock (n d : Str) (hn : '\n' ∉ n) (hd : '\n' ∉ d) :
    jsSplitNl (mkEvBlock n d) = [eventMarker ++ n, dataMarker ++ d] := by
  have h1 : '\n' ∉ eventMarker ++ n := by
    intro hm
    rcases List.mem_append.mp hm with h | h
    · exact not_nl_mem_eventMarker h
    · exact hn h
  have h2 : '\n' ∉ dataMarker ++ d := by
    intro hm
    rcases List.mem_append.mp hm with h | h
    · exact not_nl_mem_dataMarker h
    · exact hd h
  have hblock : mkEvBlock n d = ((eventMarker ++ n) ++ ['\n']) ++ (dataMarker ++ d) := by
    unfold mkEvBlock
    simp
  rw [hblock, jsSplitNl_eq_splitLines, splitLines_append]
  rw [splitLines_no_nl_snoc h1]
  simp [splitLines_no_newline h2]

/-- C7: Event Framer correctness. For every sequence of reads delivered by
the SSE stream, the complete blank-line delimited event blocks the framer
yields are exactly those of the concatenation of the reads, in order —
independent of where the read boundaries fall, including a delimiter
spanning two reads — and the trailing incomplete block is retained in the
buffer; moreover a framed block made of an event-name line and a data line
is split into exactly those two lines. -/
theorem eventFramer_chunk_invariance (reads : List Str) (n d : Str)
    (hn : '\n' ∉ n) (hd : '\n' ∉ d) :
    (sseFrameAll [] reads).2 = (splitEvents reads.flatten).1
      ∧ (sseFrameAll [] reads).1 = (splitEvents reads.flatten).2
      ∧ jsSplitNl (mkEvBlock n d) = [eventMarker ++ n, dataMarker ++ d] := by
  have h := sseFrameAll_spec reads [] (by rfl)
  refine ⟨?_, ?_, jsSplitNl_mkEvBlock n d hn hd⟩
  · rw [h]; simp
  · rw [h]; simp

/-- C7 witness: two concrete reads whose blank-line delimiter spans the
read boundary. -/
theorem eventFramer_chunk_invariance_witness :
    ((sseFrameAll [] [['a', '\n'], ['\n', 'b']]).2
        = (splitEvents ([['a', '\n'], ['\n', 'b']] : List Str).flatten).1)
      ∧ ((sseFrameAll [] [['a', '\n'], ['\n', 'b']]).1
          = (splitEvents ([['a', '\n'], ['\n', 'b']] : List Str).flatten).2)
      ∧ jsSplitNl (mkEvBlock "endpoint".data "x".data)
          = [eventMarker ++ "endpoint".data, dataMarker ++ "x".data] :=
  eventFramer_chunk_invariance [['a', '\n'], ['\n', 'b']] "endpoint".data "x".data
    (by decide) (by decide)

theorem isPrefixOf_append_self (p t : Str) : p.isPrefixOf (p ++ t) = true := by
  induction p with
  | nil => simp [List.isPrefixOf]
  | cons c cs ih => simp [List.isPrefixOf, ih]

theorem eventMarker_isPrefixOf_self (n : Str) :
    eventMarker.isPrefixOf (eventMarker ++ n) = true :=
  isPrefixOf_append_self eventMarker n

theorem dataMarker_isPrefixOf_self (d : Str) :
    dataMarker.isPrefixOf (dataMarker ++ d) = true :=
  isPrefixOf_append_self dataMarker d

theorem eventMarker_not_on_data (d : Str) :
    eventMarker.isPrefixOf (dataMarker ++ d) = false := rfl

theorem dataMarker_not_on_event (n : Str) :
    dataMarker.isPrefixOf (eventMarker ++ n) = false := rfl

theorem eventLine_drop (n : Str) : (eventMarker ++ n).drop 7 = n := rfl

theorem dataLine_drop (d : Str) : (dataMarker ++ d).drop 6 = d := rfl

theorem methodSuppressed_iff (ctx : SseCtx) (d : Str) :
    methodSuppressed ctx d = true
      ↔ (ctx.parseMethod d = some readyMethod ∨ ctx.parseMethod d = some capsMethod) := by
  unfold methodSuppressed
  cases h : ctx.parseMethod d with
  | none => simp
  | some m => simp [h]

/-- C4: Endpoint re-targeting. Processing a framed endpoint event updates
the mutable POST target: a data value with the scheme test prefix becomes
the target verbatim, a path-root value becomes the origin of the SSE URL
concatenated with the value, and any other value replaces the target
opaquely; in every case nothing is forwarded to the local peer, so every
subsequent POST — which always addresses the current target — goes to the
new URL. -/
theorem endpointEvent_retargets_posts (ctx : SseCtx) (postUrl n d o : Str)
    (hn : '\n' ∉ n) (hd : '\n' ∉ d)
    (hname : jsTrim n = endpointName)
    (horigin : ctx.urlOrigin ctx.sseUrl = some o) :
    processEvent ctx postUrl (mkEvBlock n d)
      = (if httpMarker.isPrefixOf d then d
         else if slashMarker.isPrefixOf d then o ++ d
         else d, []) := by
  unfold processEvent
  rw [jsSplitNl_mkEvBlock n d hn hd]
  by_cases h1 : httpMarker.isPrefixOf d
  · simp [processEventLines, eventMarker_isPrefixOf_self, eventLine_drop, hname,
      eventMarker_not_on_data, dataMarker_isPrefixOf_self, dataLine_drop, h1]
  · by_cases h2 : slashMarker.isPrefixOf d
    · simp [processEventLines, eventMarker_isPrefixOf_self, eventLine_drop, hname,
        eventMarker_not_on_data, dataMarker_isPrefixOf_self, dataLine_drop, h1, h2, horigin]
    · simp [processEventLines, eventMarker_isPrefixOf_self, eventLine_drop, hname,
        eventMarker_not_on_data, dataMarker_isPrefixOf_self, dataLine_drop, h1, h2]

/-- C4 witness: a concrete path-root endpoint event re-targets subsequent
POSTs to origin plus path, forwarding nothing. -/
theorem endpointEvent_retargets_posts_witness :
    processEvent demoCtx "https://worker.example/mcp".data
        (mkEvBlock "endpoint".data "/mcp?sessionId=abc".data)
      = ("https://worker.example".data ++ "/mcp?sessionId=abc".data, []) := by
  have h := endpointEvent_retargets_posts demoCtx "https://worker.example/mcp".data
      "endpoint".data "/mcp?sessionId=abc".data "https://worker.example".data
      (by decide) (by decide) (by decide) (by decide)
  rw [h]
  decide

/-- C5: Notification suppression with fail-open forwarding. For a framed
non-endpoint event block, the data payload is written to the local output
followed by one newline exactly when the parse oracle does not identify
its method as one of the two suppressed notification methods — whether
parsing succeeds with another method or fails altogether — and a
suppressed payload is never written. This holds both for a block with no
event-name line and for a block whose event name is not the reserved
discovery name. -/
theorem notification_suppression (ctx : SseCtx) (postUrl n d : Str)
    (hn : '\n' ∉ n) (hd : '\n' ∉ d) (hname : jsTrim n ≠ endpointName) :
    ((processEvent ctx postUrl (dataBlock d)).2
        = if ctx.parseMethod d = some readyMethod ∨ ctx.parseMethod d = some capsMethod
          then [] else [d ++ ['\n']])
      ∧ ((processEvent ctx postUrl (mkEvBlock n d)).2
          = if ctx.parseMethod d = some readyMethod ∨ ctx.parseMethod d = some capsMethod
            then [] else [d ++ ['\n']]) := by
  have hd2 : '\n' ∉ dataMarker ++ d := by
    intro hm
    rcases List.mem_append.mp hm with h | h
    · exact not_nl_mem_dataMarker h
    · exact hd h
  by_cases hs : methodSuppressed ctx d
  · have hor := (methodSuppressed_iff ctx d).mp hs
    rw [if_pos hor]
    constructor
    · unfold processEvent dataBlock
      rw [jsSplitNl_no_nl hd2]
      simp [processEventLines, eventMarker_not_on_data, dataMarker_isPrefixOf_self,
        dataLine_drop, hs]
    · unfold processEvent
      rw [jsSplitNl_mkEvBlock n d hn hd]
      simp [processEventLines, eventMarker_isPrefixOf_self, eventLine_drop, hname,
        eventMarker_not_on_data, dataMarker_isPrefixOf_self, dataLine_drop, hs]
  · have hor : ¬ (ctx.parseMethod d = some readyMethod ∨ ctx.parseMethod d = some capsMethod) :=
      fun hcontra => hs ((methodSuppressed_iff ctx d).mpr hcontra)
    rw [if_neg hor]
    constructor
    · unfold processEvent dataBlock
      rw [jsSplitNl_no_nl hd2]
      simp [processEventLines, eventMarker_not_on_data, dataMarker_isPrefixOf_self,
        dataLine_drop, hs]
    · unfold processEvent
      rw [jsSplitNl_mkEvBlock n d hn hd]
      simp [processEventLines, eventMarker_isPrefixOf_self, eventLine_drop, hname,
        eventMarker_not_on_data, dataMarker_isPrefixOf_self, dataLine_drop, hs]

/-- C5 witness: with the concrete environment, the payload recognised as
the ready notification is dropped and another payload is forwarded
verbatim with one newline. -/
theorem notification_suppression_witness :
    ((processEvent demoCtx "u".data (dataBlock "ready1".data)).2 = [])
      ∧ ((processEvent demoCtx "u".data (dataBlock "other".data)).2
          = ["other".data ++ ['\n']]) := by
  have h1 := (notification_suppression demoCtx "u".data "n".data "ready1".data
      (by decide) (by decide) (by decide)).1
  have h2 := (notification_suppression demoCtx "u".data "n".data "other".data
      (by decide) (by decide) (by decide)).1
  rw [h1, h2]
  constructor
  · decide
  · decide

theorem splitLines_fst_no_newline (s : Str) : ∀ l ∈ (splitLines s).1, '\n' ∉ l := by
  induction s with
  | nil => intro l hl; simp [splitLines] at hl
  | cons c cs ih =>
    by_cases hc : c = '\n'
    · subst hc
      intro l hl
      simp only [splitLines, if_true, List.mem_cons] at hl
      rcases hl with h | h
      · subst h; simp
      · exact ih l h
    · rcases hp : splitLines cs with ⟨F1, F2⟩
      rw [hp] at ih
      intro l hl
      simp only [splitLines, if_neg hc, hp] at hl
      cases F1 with
      | nil => simp [consLine] at hl
      | cons a as =>
        simp only [consLine, List.mem_cons] at hl
        rcases hl with h | h
        · subst h
          intro hm
          rcases List.mem_cons.mp hm with h1 | h1
          · exact hc h1.symm
          · exact ih a (by simp) h1
        · exact ih l (List.mem_cons_of_mem _ h)

theorem jsSplitNl_mem_no_nl {s l : Str} (hl : l ∈ jsSplitNl s) : '\n' ∉ l := by
  rw [jsSplitNl_eq_splitLines] at hl
  rcases List.mem_append.mp hl with h | h
  · exact splitLines_fst_no_newline s _ h
  · simp only [List.mem_singleton] at h
    subst h
    exact splitLines_snd_no_newline s

theorem processEventLines_outs (ctx : SseCtx) (lines : List Str) :
    ∀ (isEp : Bool) (pu o : Str),
      o ∈ (processEventLines ctx lines isEp pu).2 →
      (∀ l ∈ lines, '\n' ∉ l) →
      ∃ m, '\n' ∉ m ∧ o = m ++ ['\n'] := by
  induction lines with
  | nil => intro isEp pu o ho _; simp [processEventLines] at ho
  | cons line rest ih =>
    intro isEp pu o ho hln
    have hline : '\n' ∉ line := hln line (List.mem_cons_self _ _)
    have hrest : ∀ l ∈ rest, '\n' ∉ l := fun l hl => hln l (List.mem_cons_of_mem _ hl)
    have hdrop : '\n' ∉ line.drop 6 := fun hm => hline (List.drop_subset _ _ hm)
    simp only [processEventLines] at ho
    by_cases h1 : eventMarker.isPrefixOf line
    · rw [if_pos h1] at ho
      exact ih _ _ _ ho hrest
    · rw [if_neg h1] at ho
      by_cases h2 : dataMarker.isPrefixOf line
      · rw [if_pos h2] at ho
        cases isEp with
        | false =>
          rw [if_neg (by simp)] at ho
          by_cases h3 : methodSuppressed ctx (line.drop 6)
          · rw [if_pos h3] at ho
            exact ih _ _ _ ho hrest
          · rw [if_neg h3] at ho
            rcases List.mem_cons.mp ho with h | h
            · exact ⟨line.drop 6, hdrop, h⟩
            · exact ih _ _ _ h hrest
        | true =>
          rw [if_pos rfl] at ho
          by_cases h3 : httpMarker.isPrefixOf (line.drop 6)
          · rw [if_pos h3] at ho
            exact ih _ _ _ ho hrest
          · rw [if_neg h3] at ho
            by_cases h4 : slashMarker.isPrefixOf (line.drop 6)
            · rw [if_pos h4] at ho
              cases horigin : ctx.urlOrigin ctx.sseUrl with
              | some o2 =>
                rw [horigin] at ho
                exact ih _ _ _ ho hrest
              | none =>
                rw [horigin] at ho
                by_cases h5 : methodSuppressed ctx (line.drop 6)
                · rw [if_pos h5] at ho
                  exact ih _ _ _ ho hrest
                · rw [if_neg h5] at ho
                  rcases List.mem_cons.mp ho with h | h
                  · exact ⟨line.drop 6, hdrop, h⟩
                  · exact ih _ _ _ h hrest
            · rw [if_neg h4] at ho
              exact ih _ _ _ ho hrest
      · rw [if_neg h2] at ho
        exact ih _ _ _ ho hrest

/-- C6: Output framing invariant. A non-blank POST response body is
written to the local output as the body followed by exactly one appended
newline; an empty or whitespace-only response body produces no output at
all; and every write the SSE listener makes to the local output is a
newline-free payload followed by exactly one newline. -/
theorem output_newline_framing (ctx : SseCtx) (postUrl ev text : Str) :
    (nonBlank text = true → handleResponse text = [text ++ ['\n']])
      ∧ (nonBlank text = false → handleResponse text = [])
      ∧ (∀ o ∈ (processEvent ctx postUrl ev).2, ∃ m, '\n' ∉ m ∧ o = m ++ ['\n']) := by
  refine ⟨?_, ?_, ?_⟩
  · intro h
    have hie : text.isEmpty = false := by
      cases text with
      | nil =>
        rw [show nonBlank ([] : Str) = false from rfl] at h
        exact absurd h (by simp)
      | cons a l => rfl
    simp [handleResponse, hie, h]
  · intro h
    simp [handleResponse, h]
  · intro o ho
    unfold processEvent at ho
    exact processEventLines_outs ctx (jsSplitNl ev) false postUrl o ho
      (fun l hl => jsSplitNl_mem_no_nl hl)

/-- C6 witness: a concrete non-blank response body is relayed with one
newline, a whitespace-only body is dropped, and the writes of a concrete
event block all end in exactly one newline. -/
theorem output_newline_framing_witness :
    (handleResponse ['o', 'k'] = [['o', 'k'] ++ ['\n']])
      ∧ (handleResponse [' '] = []) := by
  have h1 := (output_newline_framing demoCtx [] [] ['o', 'k']).1
  have h2 := (output_newline_framing demoCtx [] [] [' ']).2.1
  exact ⟨h1 (by decide), h2 (by decide)⟩

/-- C8: Per-message failure isolation. Over any batch of framed lines and
any fetch behaviour: every line is POSTed exactly once to the current
target with no retry, whatever happened to earlier lines; a line whose
fetch throws contributes nothing to the local output and one tagged entry
to the separate diagnostic channel; a line whose fetch returns a response
contributes its relayed body regardless of the response status. -/
theorem postFailure_isolation (f : Str → FetchOutcome) (pu : Str) (lines : List Str) :
    (processLines f pu lines).posts = lines.map (fun l => (pu, l))
      ∧ (processLines f pu lines).outs
          = (lines.map (fun l => match f l with
              | .ok _ t => handleResponse t
              | .err _ => [])).flatten
      ∧ (processLines f pu lines).errs
          = (lines.map (fun l => match f l with
              | .ok _ _ => []
              | .err m => [errTag ++ m])).flatten := by
  induction lines with
  | nil => exact ⟨rfl, rfl, rfl⟩
  | cons l ls ih =>
    obtain ⟨ih1, ih2, ih3⟩ := ih
    refine ⟨?_, ?_, ?_⟩ <;>
      cases hf : f l <;>
        simp [processLines, sendLine, hf, ih1, ih2, ih3]

/-- C9 counterexample: the empty string is a present argument value, yet
startup exits with the usage message instead of deriving a POST target
from it, because the falsiness test does not distinguish an empty argument
from an absent one. -/
theorem startup_counterexample :
    startup (some []) = .exit usageMsg 1
      ∧ startup (some []) ≠ .run (replaceSseSuffix []) := by
  constructor
  · decide
  · decide

/-- C9 amended: a missing SSE URL argument and an empty one both make the
process print the usage message and exit with status 1 before anything
else; for a non-empty argument the process runs with the initial POST
target obtained from the argument by replacing a trailing /sse with /mcp,
and on an argument that does end in /sse this replacement swaps exactly
that suffix. -/
theorem startup_behaviour (u p : Str) (hu : u ≠ []) :
    startup none = .exit usageMsg 1
      ∧ startup (some []) = .exit usageMsg 1
      ∧ startup (some u) = .run (replaceSseSuffix u)
      ∧ replaceSseSuffix (p ++ sseSuffix) = p ++ mcpSuffix := by
  refine ⟨rfl, by decide, ?_, ?_⟩
  · have hie : u.isEmpty = false := by
      cases u with
      | nil => exact absurd rfl hu
      | cons a l => rfl
    simp [startup, hie]
  · unfold replaceSseSuffix
    have hsuf : sseSuffix.isSuffixOf (p ++ sseSuffix) = true := by
      unfold List.isSuffixOf
      rw [List.reverse_append]
      exact isPrefixOf_append_self _ _
    rw [if_pos hsuf]
    have hlen : (p ++ sseSuffix).length - 4 = p.length := by
      simp [sseSuffix]
    rw [hlen, List.take_left]

/-- C9 amended, witness: a concrete URL ending in /sse. -/
theorem startup_behaviour_witness :
    startup none = .exit usageMsg 1
      ∧ startup (some []) = .exit usageMsg 1
      ∧ startup (some ['a', '/', 's', 's', 'e'])
          = .run (replaceSseSuffix ['a', '/', 's', 's', 'e'])
      ∧ replaceSseSuffix (['a'] ++ sseSuffix) = ['a'] ++ mcpSuffix :=
  startup_behaviour ['a', '/', 's', 's', 'e'] ['a'] (by decide)

/-- C2 counterexample: an established stream whose read reports done makes
the read loop break and connectSSE return without scheduling any retry — a
clean end of stream is a terminal state for the inbound channel, so the
supervisor is not triggered on every stream end. -/
theorem streamEnd_no_retry_counterexample :
    (connectAttempt demoCtx ['u'] (.stream [ReadStep.done])).retry = none := rfl

theorem runReadLoop_fail_retry (ctx : SseCtx) (chunks : List Str) :
    ∀ pu buf,
      (runReadLoop ctx pu buf (chunks.map ReadStep.chunk ++ [ReadStep.fail])).retry
        = some retryDelayMs := by
  induction chunks with
  | nil => intro pu buf; rfl
  | cons c cs ih =>
    intro pu buf
    simp only [List.map_cons, List.cons_append, runReadLoop]
    exact ih _ _

theorem runReadLoop_done_retry (ctx : SseCtx) (chunks : List Str) :
    ∀ pu buf,
      (runReadLoop ctx pu buf (chunks.map ReadStep.chunk ++ [ReadStep.done])).retry
        = none := by
  induction chunks with
  | nil => intro pu buf; rfl
  | cons c cs ih =>
    intro pu buf
    simp only [List.map_cons, List.cons_append, runReadLoop]
    exact ih _ _

/-- C2 amended: a failed connection attempt (the fetch throws or the
response status is not ok) and a read that throws mid-stream both land in
the catch handler, which schedules a new connectSSE call after the fixed
5000 millisecond interval — whatever chunks were read before the failure;
but a read that reports the stream done breaks out of the loop and
connectSSE returns with no retry scheduled, a terminal state for the
inbound channel. -/
theorem reconnection_on_failure (ctx : SseCtx) (pu : Str) (chunks : List Str) :
    (connectAttempt ctx pu .connectError).retry = some retryDelayMs
      ∧ (connectAttempt ctx pu
          (.stream (chunks.map ReadStep.chunk ++ [ReadStep.fail]))).retry = some retryDelayMs
      ∧ (connectAttempt ctx pu
          (.stream (chunks.map ReadStep.chunk ++ [ReadStep.done]))).retry = none :=
  ⟨rfl, runReadLoop_fail_retry ctx chunks pu [], runReadLoop_done_retry ctx chunks pu []⟩

end Bridge
